import Mathlib

/-!
Verification development for the moka concurrent cache (sync API).

The repository sources available are `src/sync/cache.rs` and
`src/sync/segment.rs`.  The segmentation layer (`segment.rs`) is embedded
directly from the source.  The cache core (`BaseCache`), the housekeeper and
the single-flight `ValueInitializer` live in files that are not part of the
source tree; following the specification document, those parts are modelled
from the spec (each such definition carries a doc comment starting with
`Modelled from the spec:`).
-/

namespace Moka

/-- Value entry stored in the hash table.  Mirrors the spec data model:
an owning envelope around the user value plus the two monotonic timestamps
(`last_accessed_at` updated on read, `last_modified_at` updated on
insert/update).  Timestamps are modelled as natural numbers from an
injectable monotonic clock. -/
structure Entry (V : Type) where
  value : V
  last_modified_at : Nat
  last_accessed_at : Nat
deriving DecidableEq

/-- Write event posted to the reliable write buffer, from `WriteOp` in the
sync module: insert-or-update events and remove events, each carrying the
entry whose policy state is transferred. -/
inductive WriteOp (K V : Type) where
  | upsert (k : K) (e : Entry V)
  | remove (k : K) (e : Entry V)
deriving DecidableEq

/-- Invalidation predicate record: `{id, predicate_fn, registered_at}`;
applies to entries whose `last_modified_at` precedes `registered_at`. -/
structure PredRec (K V : Type) where
  pid : Nat
  pred : K → V → Bool
  registered_at : Nat

/-- The public error kind raised by `invalidate_entries_if` on a cache that
was built without predicate support. -/
inductive PredicateError where
  | InvalidationClosuresDisabled
deriving DecidableEq

/-- Modelled from the spec: the state of one `BaseCache` (cache core).  The
file `base_cache.rs` is not in the source tree; the fields follow spec
sections 3 and 4.1: the hash table (a mapping from keys to entries), the
`invalidate_all` timestamp (`valid_after`), the registered invalidation
predicates, the predicate-support flag, the TTL/TTI configuration, the
current instant of the injectable monotonic clock, the next fresh predicate
id and the pending write buffer. -/
structure CacheState (K V : Type) where
  max_capacity : Nat
  table : K → Option (Entry V)
  valid_after : Option Nat
  preds : List (PredRec K V)
  invalidator_enabled : Bool
  time_to_live : Option Nat
  time_to_idle : Option Nat
  now : Nat
  next_pid : Nat
  write_buf : List (WriteOp K V)

/-- Pointwise update of the table at one key. -/
def setK {K V : Type} [DecidableEq K] (tbl : K → Option (Entry V)) (k : K)
    (e : Option (Entry V)) : K → Option (Entry V) :=
  fun q => if q = k then e else tbl q

/-- Modelled from the spec: `Cache::with_everything` builds a fresh core
with an empty table, no invalidation timestamp and no registered
predicates (`BaseCache::new` is not in the source tree). -/
def with_everything {K V : Type} (max_capacity : Nat) (ttl tti : Option Nat)
    (invalidator_enabled : Bool) : CacheState K V :=
  { max_capacity := max_capacity
    table := fun _ => none
    valid_after := none
    preds := []
    invalidator_enabled := invalidator_enabled
    time_to_live := ttl
    time_to_idle := tti
    now := 0
    next_pid := 0
    write_buf := [] }

/-- Modelled from the spec: the inline expiration check performed by `get`
(spec 4.4): an entry is expired when `last_modified_at + TTL ≤ now` or
`last_accessed_at + TTI ≤ now`. -/
def isExpired {K V : Type} (s : CacheState K V) (e : Entry V) : Bool :=
  (match s.time_to_live with
   | some ttl => decide (e.last_modified_at + ttl ≤ s.now)
   | none => false) ||
  (match s.time_to_idle with
   | some tti => decide (e.last_accessed_at + tti ≤ s.now)
   | none => false)

/-- Modelled from the spec: the inline `invalidate_all` check performed by
`get` (spec 4.1): entries with `last_modified_at` before the recorded
invalidation timestamp are considered absent. -/
def isTsInvalidated {K V : Type} (s : CacheState K V) (e : Entry V) : Bool :=
  match s.valid_after with
  | some t => decide (e.last_modified_at < t)
  | none => false

/-- Modelled from the spec: the inline predicate-invalidation check
performed by `get` (spec 3 and 4.1): a registered predicate applies to an
entry iff the entry's `last_modified_at` precedes the predicate's
registration timestamp and the predicate matches the key and value. -/
def isPredInvalidated {K V : Type} (s : CacheState K V) (k : K) (e : Entry V) : Bool :=
  s.preds.any (fun p => decide (e.last_modified_at < p.registered_at) && p.pred k e.value)

/-- Modelled from the spec: the entry `get` would return, if any
(`BaseCache::get_with_hash` is not in the source tree).  Looks the key up,
then applies the three inline absence checks (expiration, `invalidate_all`
timestamp, registered predicates); spec 4.1. -/
def lookupE {K V : Type} (s : CacheState K V) (k : K) : Option (Entry V) :=
  match s.table k with
  | none => none
  | some e =>
    if isExpired s e then none
    else if isTsInvalidated s e then none
    else if isPredInvalidated s k e then none
    else some e

/-- The value returned by `get`: a clone of the stored value of the visible
entry. -/
def lookup {K V : Type} (s : CacheState K V) (k : K) : Option V :=
  (lookupE s k).map Entry.value

/-- Modelled from the spec: `BaseCache::remove` (not in the source tree)
removes the hash-table binding if present and returns the removed entry. -/
def removeKey {K V : Type} [DecidableEq K] (s : CacheState K V) (k : K) :
    Option (Entry V) × CacheState K V :=
  match s.table k with
  | some e => (some e, { s with table := setK s.table k none })
  | none => (none, s)

/-- User-facing operations of the cache core, used to build traces. `sync`
carries the admission decisions the housekeeper's TinyLFU policy takes for
the drained insert events, indexed by position in the write buffer. -/
inductive Op (K V : Type) where
  | insert (k : K) (v : V)
  | invalidate (k : K)
  | invalidateAll
  | invalidateEntriesIf (p : K → V → Bool)
  | getOp (k : K)
  | sync (adm : Nat → Bool)

/-- Modelled from the spec: the housekeeper's write-buffer drain
(spec 4.6 / 4.3).  Events are processed in order; an insert event whose
entry the admission policy rejects is evicted from the table (only if the
table still holds that exact entry); remove events only update policy
bookkeeping, which is not part of the visible state. -/
def drain {K V : Type} [DecidableEq K] [DecidableEq V]
    (tbl : K → Option (Entry V)) :
    List (WriteOp K V) → (Nat → Bool) → Nat → (K → Option (Entry V))
  | [], _, _ => tbl
  | .upsert k e :: rest, adm, i =>
    drain (if adm i then tbl else if tbl k = some e then setK tbl k none else tbl)
      rest adm (i + 1)
  | .remove _ _ :: rest, adm, i => drain tbl rest adm (i + 1)

/-- Modelled from the spec: one user-facing operation on the cache core.
Mutating operations (insert, invalidate of a present key, invalidate a11,
predicate registration) happen at a fresh clock instant `now + 1`, which
embeds the monotonic expiration clock; `get` and the housekeeper's `sync`
do not advance the operation clock.  `insert` places the new entry in the
table immediately and appends a reliable write event; `invalidate` of an
absent key is the identity; `invalidate_all` records the invalidation
timestamp; `sync` drains the write buffer applying the admission
decisions. -/
def applyOp {K V : Type} [DecidableEq K] [DecidableEq V]
    (s : CacheState K V) : Op K V → CacheState K V
  | .insert k v =>
    let e : Entry V := ⟨v, s.now + 1, s.now + 1⟩
    { s with table := setK s.table k (some e)
             write_buf := s.write_buf ++ [.upsert k e]
             now := s.now + 1 }
  | .invalidate k =>
    match removeKey s k with
    | (some e, s1) =>
      { s1 with write_buf := s1.write_buf ++ [.remove k e], now := s1.now + 1 }
    | (none, s1) => s1
  | .invalidateAll =>
    { s with valid_after := some (s.now + 1), now := s.now + 1 }
  | .invalidateEntriesIf p =>
    if s.invalidator_enabled then
      { s with preds := s.preds ++ [⟨s.next_pid, p, s.now + 1⟩]
               next_pid := s.next_pid + 1
               now := s.now + 1 }
    else s
  | .getOp k =>
    match lookupE s k with
    | some e =>
      { s with table := setK s.table k (some { e with last_accessed_at := s.now }) }
    | none => s
  | .sync adm =>
    { s with table := drain s.table s.write_buf adm 0, write_buf := [] }

/-- Run a list of operations from a state. -/
def runOps {K V : Type} [DecidableEq K] [DecidableEq V]
    (s : CacheState K V) : List (Op K V) → CacheState K V
  | [] => s
  | op :: rest => runOps (applyOp s op) rest

/-- Modelled from the spec: `invalidate_entries_if` on the cache core
(`BaseCache::invalidate_entries_if` is not in the source tree).  When the
cache was built with predicate support it registers the predicate with a
fresh `PredicateId` and the registration timestamp and returns the id;
otherwise it fails with `InvalidationClosuresDisabled` and changes
nothing. -/
def cacheInvalidateEntriesIf {K V : Type} (s : CacheState K V)
    (p : K → V → Bool) : Except PredicateError Nat × CacheState K V :=
  if s.invalidator_enabled then
    (.ok s.next_pid,
      { s with preds := s.preds ++ [⟨s.next_pid, p, s.now + 1⟩]
               next_pid := s.next_pid + 1
               now := s.now + 1 })
  else (.error .InvalidationClosuresDisabled, s)

/-- Well-formedness of a cache-core state: every timestamp recorded in the
state (invalidation timestamp, predicate registrations, table entries,
buffered write events) is no later than the current clock instant. -/
def WF {K V : Type} (s : CacheState K V) : Prop :=
  (∀ t, s.valid_after = some t → t ≤ s.now) ∧
  (∀ p ∈ s.preds, p.registered_at ≤ s.now) ∧
  (∀ k e, s.table k = some e → e.last_modified_at ≤ s.now) ∧
  (∀ k e, WriteOp.upsert k e ∈ s.write_buf → e.last_modified_at ≤ s.now)

/-- The configured expiry durations are positive (a zero TTL or TTI would
expire every entry at the instant it is written). -/
def PosExp {K V : Type} (s : CacheState K V) : Prop :=
  s.time_to_live ≠ some 0 ∧ s.time_to_idle ≠ some 0

/-!
## Segmentation layer, embedded from `src/src/sync/segment.rs`
-/

/-- Fuel-driven helper for the next power of two. -/
def nextPow2Fuel : Nat → Nat → Nat
  | 0, _ => 1
  | fuel + 1, n => if n ≤ 1 then 1 else 2 * nextPow2Fuel fuel ((n + 1) / 2)

/-- Rust `usize::next_power_of_two`: the least power of two that is
greater than or equal to the argument (and 1 for 0). -/
def next_power_of_two (n : Nat) : Nat := nextPow2Fuel n n

/-- Fuel-driven helper for the base-two logarithm. -/
def log2Fuel : Nat → Nat → Nat
  | 0, _ => 0
  | fuel + 1, n => if 2 ≤ n then log2Fuel fuel (n / 2) + 1 else 0

/-- Base-two logarithm (floor).  `Inner::new` computes
`actual_num_segments.trailing_zeros()`; since `actual_num_segments` is a
power of two, its trailing-zero count equals its base-two logarithm, which
is what this function embeds. -/
def ulog2 (n : Nat) : Nat := log2Fuel n n

/-- `Inner` of `SegmentedCache` (segment.rs lines 348-353): the desired
total capacity, the boxed slice of segment caches, and the hash shift used
to select a segment. -/
structure Inner (K V : Type) where
  desired_capacity : Nat
  segments : List (CacheState K V)
  segment_shift : Nat

/-- `Inner::new` (segment.rs lines 364-401), embedded step by step:
`assert!(num_segments > 0)` is modelled by returning `none`;
`actual_num_segments = num_segments.next_power_of_two()`;
`segment_shift = 64 - actual_num_segments.trailing_zeros()`;
`seg_capacity = max_capacity / actual_num_segments` (the source carries a
`TODO: Round up.` comment and truncates); the segment vector is built by
mapping over `(0..num_segments)` — the source's range, kept verbatim. -/
def Inner.new {K V : Type} (max_capacity num_segments : Nat)
    (ttl tti : Option Nat) (invalidator_enabled : Bool) : Option (Inner K V) :=
  if num_segments = 0 then none
  else
    let actual_num_segments := next_power_of_two num_segments
    let segment_shift := 64 - ulog2 actual_num_segments
    let seg_capacity := max_capacity / actual_num_segments
    some
      { desired_capacity := max_capacity
        segments :=
          (List.range num_segments).map
            (fun _ => with_everything seg_capacity ttl tti invalidator_enabled)
        segment_shift := segment_shift }

/-- `Inner::segment_index_from_hash` (segment.rs lines 420-427): 0 when
the shift is 64, otherwise `hash >> segment_shift`. -/
def Inner.segment_index_from_hash {K V : Type} (inner : Inner K V)
    (hash : Nat) : Nat :=
  if inner.segment_shift = 64 then 0 else hash >>> inner.segment_shift

/-- `Inner::select` (segment.rs lines 414-418): index into the segment
slice with the computed index.  Rust indexing panics when the index is out
of bounds, which the `Option` result captures. -/
def Inner.select {K V : Type} (inner : Inner K V) (hash : Nat) :
    Option (CacheState K V) :=
  inner.segments[inner.segment_index_from_hash hash]?

/-- Helper for `SegmentedCache::invalidate_entries_if`: register the
predicate on each segment in order, short-circuiting on the first error as
the `?` operator does (segment.rs lines 240-244). -/
def segIEIGo {K V : Type} (p : K → V → Bool) :
    List (CacheState K V) → Except PredicateError Unit × List (CacheState K V)
  | [] => (.ok (), [])
  | c :: rest =>
    match cacheInvalidateEntriesIf c p with
    | (.ok _, c2) =>
      match segIEIGo p rest with
      | (r, rest2) => (r, c2 :: rest2)
    | (.error e, c2) => (.error e, c2 :: rest)

/-- `SegmentedCache::invalidate_entries_if` (segment.rs lines 236-245):
broadcasts the predicate to every segment and returns `Ok(())` on
success — the per-segment `PredicateId`s are discarded by the `?`. -/
def segInvalidateEntriesIf {K V : Type} (inner : Inner K V)
    (p : K → V → Bool) : Except PredicateError Unit × Inner K V :=
  match segIEIGo p inner.segments with
  | (r, segs) => (r, { inner with segments := segs })

/-!
## Single-flight value initialization (spec 4.7)

`value_initializer.rs` is not in the source tree, so the protocol is
modelled from spec 4.7, specialised to one key `k` (the wait map is
per-key; the generations below are the successive `Waiter`s installed for
that key).  Threads interleave freely: a schedule is a list of thread ids,
and each scheduled thread performs the next atomic step its phase allows.
The owner's completion (store the result into the waiter slot, store the
value in the cache on success, fire the latch, remove the waiter from the
map) is taken as one atomic step; splitting it would only add interleavings
in which waiters read the already-written slot, with the same outcomes.
-/

instance {E V : Type} [DecidableEq E] [DecidableEq V] :
    DecidableEq (Except E V) := fun a b =>
  match a, b with
  | .ok x, .ok y =>
    if h : x = y then .isTrue (by rw [h]) else .isFalse (by simp [h])
  | .ok _, .error _ => .isFalse (by simp)
  | .error _, .ok _ => .isFalse (by simp)
  | .error x, .error y =>
    if h : x = y then .isTrue (by rw [h]) else .isFalse (by simp [h])

/-- Phase of one thread running `get_or_insert_with` /
`get_or_try_insert_with` for the key: about to run the fast-path `get`;
missed and about to touch the wait map; owning waiter generation `g` and
about to evaluate `init`; blocked on generation `g`'s latch; or finished
with result `r` (through generation `g`, or `none` for a fast-path hit). -/
inductive Phase (V E : Type) where
  | start
  | missed
  | owner (g : Nat)
  | waiting (g : Nat)
  | finished (g : Option Nat) (r : Except E V)
deriving DecidableEq

/-- Modelled from the spec: the shared state of the single-flight
coordinator for one key.  `cache` is the cache slot for the key, `gens`
the slots of all waiter generations ever installed (a slot is `none` until
its owner fires the latch), `activeGen` the generation currently present
in the wait map, `phases` the per-thread phases and `evals` the ids of the
threads whose `init` closure has been evaluated, in evaluation order. -/
structure SFState (V E : Type) where
  cache : Option V
  gens : List (Option (Except E V))
  activeGen : Option Nat
  phases : Nat → Phase V E
  evals : List Nat

/-- Replace one thread's phase. -/
def setPhase {V E : Type} (s : SFState V E) (t : Nat) (p : Phase V E) :
    SFState V E :=
  { s with phases := fun u => if u = t then p else s.phases u }

/-- Modelled from the spec: one atomic step of thread `t` (spec 4.7 steps
1-3 plus the dispatch in `Cache::get_or_insert_with_hash_and_fun` and
`Cache::get_or_try_insert_with_hash_and_fun`, cache.rs lines 267-334).
`inits t` is the (deterministic) result of evaluating thread `t`'s init
closure.  A thread whose phase allows no step leaves the state unchanged.
Step 1: read the cache; a hit returns the existing value.  Step 2: if a
waiter is present, block on it; otherwise install a fresh waiter and
become its owner.  Step 3 (owner): evaluate `init`; on `Ok v` store `v` in
the cache, fill the slot, fire the latch and remove the waiter; on `Err e`
fill the slot with the shared error, fire the latch and remove the waiter
without touching the cache.  A blocked thread whose latch has fired
returns the result in the slot (the value on success, the shared error on
failure). -/
def stepTid {V E : Type} (inits : Nat → Except E V) (s : SFState V E)
    (t : Nat) : SFState V E :=
  match s.phases t with
  | .start =>
    match s.cache with
    | some v => setPhase s t (.finished none (.ok v))
    | none => setPhase s t .missed
  | .missed =>
    match s.activeGen with
    | some g => setPhase s t (.waiting g)
    | none =>
      { cache := s.cache
        gens := s.gens ++ [none]
        activeGen := some s.gens.length
        phases := fun u => if u = t then .owner s.gens.length else s.phases u
        evals := s.evals }
  | .owner g =>
    { cache := match inits t with | .ok v => some v | .error _ => s.cache
      gens := s.gens.set g (some (inits t))
      activeGen := none
      phases := fun u => if u = t then .finished (some g) (inits t)
                 else s.phases u
      evals := s.evals ++ [t] }
  | .waiting g =>
    match s.gens[g]? with
    | some (some r) => setPhase s t (.finished (some g) r)
    | _ => s
  | .finished _ _ => s

/-- Run a schedule (list of thread ids) from a state. -/
def runSF {V E : Type} (inits : Nat → Except E V) (s : SFState V E) :
    List Nat → SFState V E
  | [] => s
  | t :: rest => runSF inits (stepTid inits s t) rest

/-- The initial state: the key is absent, no waiter is installed, every
thread is about to perform its fast-path read. -/
def startSF {V E : Type} : SFState V E :=
  { cache := none, gens := [], activeGen := none
    phases := fun _ => .start, evals := [] }

/-- All init closures succeed with the same value (the infallible
`get_or_insert_with` scenario of claim C2: every caller passes the same
deterministic init). -/
def AllOk {V E : Type} (inits : Nat → Except E V) (v : V) : Prop :=
  ∀ t, inits t = .ok v

/-- The recorded `invalidate_all` timestamp, as a natural number. -/
def vaNat {K V : Type} (s : CacheState K V) : Nat := (s.valid_after).getD 0

/-- The protocol invariant, for arbitrary init results: there is at most
one waiter owner at a time (and none while the wait map is empty); the
slot of a generation is unfilled while its owner is evaluating; a thread
recorded in `evals` has finished with its own init's result; the cache
only ever holds values produced by successful evaluations; and a thread
that finished through generation `g` returned exactly what generation
`g`'s slot holds. -/
def InvSF {V E : Type} (inits : Nat → Except E V) (s : SFState V E) : Prop :=
  (s.activeGen = none → ∀ t g, s.phases t ≠ .owner g) ∧
  (∀ t1 t2 g1 g2, s.phases t1 = .owner g1 → s.phases t2 = .owner g2 →
    t1 = t2) ∧
  (∀ t g, s.phases t = .owner g → s.gens[g]? = some none) ∧
  (∀ t, t ∈ s.evals → ∃ g, s.phases t = .finished (some g) (inits t)) ∧
  (∀ v, s.cache = some v → ∃ t, t ∈ s.evals ∧ inits t = .ok v) ∧
  (∀ t g r, s.phases t = .finished (some g) r → s.gens[g]? = some (some r))

/-- The invariant for the all-successful, same-value scenario: the cache
only ever holds `v`, every filled slot holds `Ok v`, and every finished
thread returned `Ok v`. -/
def InvOk {V E : Type} (v : V) (s : SFState V E) : Prop :=
  (∀ w, s.cache = some w → w = v) ∧
  (∀ (g : Nat) (r : Except E V), s.gens[g]? = some (some r) → r = .ok v) ∧
  (∀ (t : Nat) (g : Option Nat) (r : Except E V),
    s.phases t = .finished g r → r = .ok v)

/-- A concrete family of init closures in which every thread returns 42
(Nat values, Nat-coded errors). -/
def cInitsOk : Nat → Except Nat Nat := fun _ => .ok 42

/-- A concrete family of fallible init closures: thread 0 fails with
error 7, every other thread succeeds with 5. -/
def cInits3 : Nat → Except Nat Nat := fun t => if t = 0 then .error 7 else .ok 5

/-!
## Helper lemmas: lists
-/

lemma getElem?_append_single {A : Type} (l : List A) (a b : A) (i : Nat)
    (h : (l ++ [a])[i]? = some b) : l[i]? = some b ∨ b = a := by
  rw [List.getElem?_append] at h
  by_cases hlt : i < l.length
  · rw [if_pos hlt] at h
    exact Or.inl h
  · rw [if_neg hlt] at h
    cases hd : i - l.length with
    | zero =>
      rw [hd] at h
      cases h
      exact Or.inr rfl
    | succ m =>
      rw [hd] at h
      cases h

lemma getElem?_set_cases {A : Type} (l : List A) (i j : Nat) (a b : A)
    (h : (l.set i a)[j]? = some b) : l[j]? = some b ∨ (j = i ∧ b = a) := by
  by_cases hij : i = j
  · subst hij
    by_cases hlt : i < l.length
    · rw [List.getElem?_set_eq_of_lt a hlt] at h
      cases h
      exact Or.inr ⟨rfl, rfl⟩
    · rw [List.set_eq_of_length_le (Nat.le_of_not_lt hlt)] at h
      exact Or.inl h
  · rw [List.getElem?_set_ne hij] at h
    exact Or.inl h

/-!
## Helper lemmas: single-flight model
-/

@[simp] lemma setPhase_phases {V E : Type} (s : SFState V E) (t : Nat)
    (p : Phase V E) (u : Nat) :
    (setPhase s t p).phases u = if u = t then p else s.phases u := rfl

@[simp] lemma setPhase_cache {V E : Type} (s : SFState V E) (t : Nat)
    (p : Phase V E) : (setPhase s t p).cache = s.cache := rfl

@[simp] lemma setPhase_gens {V E : Type} (s : SFState V E) (t : Nat)
    (p : Phase V E) : (setPhase s t p).gens = s.gens := rfl

@[simp] lemma setPhase_activeGen {V E : Type} (s : SFState V E) (t : Nat)
    (p : Phase V E) : (setPhase s t p).activeGen = s.activeGen := rfl

@[simp] lemma setPhase_evals {V E : Type} (s : SFState V E) (t : Nat)
    (p : Phase V E) : (setPhase s t p).evals = s.evals := rfl


lemma InvSF_setPhase {V E : Type} (inits : Nat → Except E V) (s : SFState V E)
    (t : Nat) (p : Phase V E) (h : InvSF inits s)
    (hnotown : ∀ g, p ≠ .owner g)
    (hfin : ∀ g r, p = .finished (some g) r → s.gens[g]? = some (some r))
    (hne : ∀ g2 r2, s.phases t ≠ .finished g2 r2) :
    InvSF inits (setPhase s t p) := by
  obtain ⟨hU1, hU2, hJ5, hJ1, hJ2, hJ3⟩ := h
  refine ⟨?_, ?_, ?_, ?_, ?_, ?_⟩
  · intro hag t2 g
    simp only [setPhase_activeGen] at hag
    simp only [setPhase_phases]
    by_cases ht2 : t2 = t
    · rw [if_pos ht2]
      exact hnotown g
    · rw [if_neg ht2]
      exact hU1 hag t2 g
  · intro t1 t2 g1 g2 h1 h2
    simp only [setPhase_phases] at h1 h2
    by_cases e1 : t1 = t
    · rw [if_pos e1] at h1
      exact absurd h1 (hnotown g1)
    · rw [if_neg e1] at h1
      by_cases e2 : t2 = t
      · rw [if_pos e2] at h2
        exact absurd h2 (hnotown g2)
      · rw [if_neg e2] at h2
        exact hU2 t1 t2 g1 g2 h1 h2
  · intro t2 g h2
    simp only [setPhase_phases] at h2
    simp only [setPhase_gens]
    by_cases e2 : t2 = t
    · rw [if_pos e2] at h2
      exact absurd h2 (hnotown g)
    · rw [if_neg e2] at h2
      exact hJ5 t2 g h2
  · intro t2 ht2
    simp only [setPhase_evals] at ht2
    obtain ⟨g, hg⟩ := hJ1 t2 ht2
    by_cases e2 : t2 = t
    · exact absurd (e2 ▸ hg) (hne _ _)
    · refine ⟨g, ?_⟩
      simp only [setPhase_phases]
      rw [if_neg e2]
      exact hg
  · intro v hv
    simp only [setPhase_cache] at hv
    simp only [setPhase_evals]
    exact hJ2 v hv
  · intro t2 g r h2
    simp only [setPhase_phases] at h2
    simp only [setPhase_gens]
    by_cases e2 : t2 = t
    · rw [if_pos e2] at h2
      exact hfin g r h2
    · rw [if_neg e2] at h2
      exact hJ3 t2 g r h2

lemma InvSF_step {V E : Type} (inits : Nat → Except E V) (s : SFState V E)
    (t : Nat) (h : InvSF inits s) : InvSF inits (stepTid inits s t) := by
  have hInv := h
  obtain ⟨hU1, hU2, hJ5, hJ1, hJ2, hJ3⟩ := h
  cases hp : s.phases t with
  | start =>
    cases hc : s.cache with
    | some v =>
      simp only [stepTid, hp, hc]
      refine InvSF_setPhase inits s t _ hInv ?_ ?_ ?_
      · intro g hg
        cases hg
      · intro g r hg
        cases hg
      · intro g2 r2 hg
        rw [hp] at hg
        cases hg
    | none =>
      simp only [stepTid, hp, hc]
      refine InvSF_setPhase inits s t _ hInv ?_ ?_ ?_
      · intro g hg
        cases hg
      · intro g r hg
        cases hg
      · intro g2 r2 hg
        rw [hp] at hg
        cases hg
  | missed =>
    cases hag : s.activeGen with
    | some g =>
      simp only [stepTid, hp, hag]
      refine InvSF_setPhase inits s t _ hInv ?_ ?_ ?_
      · intro g2 hg
        cases hg
      · intro g2 r hg
        cases hg
      · intro g2 r2 hg
        rw [hp] at hg
        cases hg
    | none =>
      simp only [stepTid, hp, hag]
      refine ⟨?_, ?_, ?_, ?_, ?_, ?_⟩
      · intro hbad
        cases hbad
      · intro t1 t2 g1 g2 h1 h2
        dsimp only at h1 h2
        by_cases e1 : t1 = t
        · by_cases e2 : t2 = t
          · rw [e1, e2]
          · rw [if_neg e2] at h2
            exact absurd h2 (hU1 hag t2 g2)
        · rw [if_neg e1] at h1
          exact absurd h1 (hU1 hag t1 g1)
      · intro t2 g2 h2
        dsimp only at h2
        dsimp only
        by_cases e2 : t2 = t
        · rw [if_pos e2] at h2
          cases h2
          exact List.getElem?_concat_length s.gens none
        · rw [if_neg e2] at h2
          exact absurd h2 (hU1 hag t2 g2)
      · intro t2 ht2
        dsimp only at ht2
        obtain ⟨g2, hg2⟩ := hJ1 t2 ht2
        by_cases e2 : t2 = t
        · rw [e2, hp] at hg2
          cases hg2
        · refine ⟨g2, ?_⟩
          dsimp only
          rw [if_neg e2]
          exact hg2
      · intro v hv
        dsimp only at hv
        exact hJ2 v hv
      · intro t2 g2 r h2
        dsimp only at h2
        dsimp only
        by_cases e2 : t2 = t
        · rw [if_pos e2] at h2
          cases h2
        · rw [if_neg e2] at h2
          have hold := hJ3 t2 g2 r h2
          have hlt : g2 < s.gens.length := (List.getElem?_eq_some.mp hold).1
          rw [List.getElem?_append]
          rw [if_pos hlt]
          exact hold
  | owner g =>
    have hslot : s.gens[g]? = some none := hJ5 t g hp
    have hglt : g < s.gens.length := (List.getElem?_eq_some.mp hslot).1
    simp only [stepTid, hp]
    have hnoown : ∀ t2 g2,
        (if t2 = t then Phase.finished (some g) (inits t) else s.phases t2)
          ≠ Phase.owner g2 := by
      intro t2 g2 h2
      by_cases e2 : t2 = t
      · rw [if_pos e2] at h2
        cases h2
      · rw [if_neg e2] at h2
        exact e2 (hU2 t2 t g2 g h2 hp)
    refine ⟨?_, ?_, ?_, ?_, ?_, ?_⟩
    · intro _ t2 g2
      exact hnoown t2 g2
    · intro t1 t2 g1 g2 h1 h2
      dsimp only at h1
      exact absurd h1 (hnoown t1 g1)
    · intro t2 g2 h2
      dsimp only at h2
      exact absurd h2 (hnoown t2 g2)
    · intro t2 ht2
      dsimp only at ht2
      rcases List.mem_append.mp ht2 with hin | hin
      · obtain ⟨g2, hg2⟩ := hJ1 t2 hin
        by_cases e2 : t2 = t
        · rw [e2, hp] at hg2
          cases hg2
        · refine ⟨g2, ?_⟩
          dsimp only
          rw [if_neg e2]
          exact hg2
      · have e2 : t2 = t := by
          cases hin with
          | head => rfl
          | tail _ hbad => cases hbad
        refine ⟨g, ?_⟩
        dsimp only
        rw [if_pos e2, e2]
    · intro v hv
      dsimp only at hv
      cases hi : inits t with
      | ok v0 =>
        rw [hi] at hv
        cases hv
        exact ⟨t, List.mem_append_right _ (List.mem_singleton.mpr rfl), hi⟩
      | error e0 =>
        rw [hi] at hv
        obtain ⟨t2, ht2, hok⟩ := hJ2 v hv
        exact ⟨t2, List.mem_append_left _ ht2, hok⟩
    · intro t2 g2 r h2
      dsimp only at h2
      dsimp only
      by_cases e2 : t2 = t
      · rw [if_pos e2] at h2
        cases h2
        rw [List.getElem?_set_eq_of_lt _ hglt]
      · rw [if_neg e2] at h2
        have hold := hJ3 t2 g2 r h2
        by_cases eg : g = g2
        · exfalso
          rw [← eg, hslot] at hold
          cases hold
        · rw [List.getElem?_set_ne eg]
          exact hold
  | waiting g =>
    cases hsl : s.gens[g]? with
    | none =>
      simp only [stepTid, hp, hsl]
      exact hInv
    | some o =>
      cases o with
      | none =>
        simp only [stepTid, hp, hsl]
        exact hInv
      | some r =>
        simp only [stepTid, hp, hsl]
        refine InvSF_setPhase inits s t _ hInv ?_ ?_ ?_
        · intro g2 hg
          cases hg
        · intro g2 r2 hg
          cases hg
          exact hsl
        · intro g2 r2 hg
          rw [hp] at hg
          cases hg
  | finished g r =>
    simp only [stepTid, hp]
    exact hInv

lemma InvSF_start {V E : Type} (inits : Nat → Except E V) :
    InvSF inits (startSF (V := V) (E := E)) := by
  refine ⟨?_, ?_, ?_, ?_, ?_, ?_⟩
  · intro _ t g hg
    cases hg
  · intro t1 t2 g1 g2 h1 h2
    cases h1
  · intro t g hg
    cases hg
  · intro t ht
    cases ht
  · intro v hv
    cases hv
  · intro t g r h2
    cases h2

lemma InvSF_run {V E : Type} (inits : Nat → Except E V) (s : SFState V E)
    (h : InvSF inits s) (sched : List Nat) :
    InvSF inits (runSF inits s sched) := by
  induction sched generalizing s with
  | nil => exact h
  | cons t rest ih => exact ih _ (InvSF_step inits s t h)


lemma InvOk_setPhase {V E : Type} (v : V) (s : SFState V E) (t : Nat)
    (p : Phase V E) (h : InvOk v s)
    (hpok : ∀ g r, p = .finished g r → r = .ok v) :
    InvOk v (setPhase s t p) := by
  obtain ⟨hC, hG, hF⟩ := h
  refine ⟨?_, ?_, ?_⟩
  · intro w hw
    simp only [setPhase_cache] at hw
    exact hC w hw
  · intro g r hg
    simp only [setPhase_gens] at hg
    exact hG g r hg
  · intro t2 g r h2
    simp only [setPhase_phases] at h2
    by_cases e2 : t2 = t
    · rw [if_pos e2] at h2
      exact hpok g r h2
    · rw [if_neg e2] at h2
      exact hF t2 g r h2

lemma InvOk_step {V E : Type} (inits : Nat → Except E V) (v : V)
    (hall : AllOk inits v) (s : SFState V E) (t : Nat) (h : InvOk v s) :
    InvOk v (stepTid inits s t) := by
  have hInv := h
  obtain ⟨hC, hG, hF⟩ := h
  cases hp : s.phases t with
  | start =>
    cases hc : s.cache with
    | some w =>
      simp only [stepTid, hp, hc]
      refine InvOk_setPhase v s t _ hInv ?_
      intro g r hg
      cases hg
      rw [hC w hc]
    | none =>
      simp only [stepTid, hp, hc]
      refine InvOk_setPhase v s t _ hInv ?_
      intro g r hg
      cases hg
  | missed =>
    cases hag : s.activeGen with
    | some g =>
      simp only [stepTid, hp, hag]
      refine InvOk_setPhase v s t _ hInv ?_
      intro g2 r hg
      cases hg
    | none =>
      simp only [stepTid, hp, hag]
      refine ⟨?_, ?_, ?_⟩
      · intro w hw
        dsimp only at hw
        exact hC w hw
      · intro g2 r hg
        dsimp only at hg
        rcases getElem?_append_single _ _ _ _ hg with hold | hnew
        · exact hG g2 r hold
        · cases hnew
      · intro t2 g2 r h2
        dsimp only at h2
        by_cases e2 : t2 = t
        · rw [if_pos e2] at h2
          cases h2
        · rw [if_neg e2] at h2
          exact hF t2 g2 r h2
  | owner g =>
    simp only [stepTid, hp]
    refine ⟨?_, ?_, ?_⟩
    · intro w hw
      dsimp only at hw
      rw [hall t] at hw
      cases hw
      rfl
    · intro g2 r hg
      dsimp only at hg
      rcases getElem?_set_cases _ _ _ _ _ hg with hold | ⟨_, hnew⟩
      · exact hG g2 r hold
      · cases hnew
        exact hall t
    · intro t2 g2 r h2
      dsimp only at h2
      by_cases e2 : t2 = t
      · rw [if_pos e2] at h2
        cases h2
        exact hall t
      · rw [if_neg e2] at h2
        exact hF t2 g2 r h2
  | waiting g =>
    cases hsl : s.gens[g]? with
    | none =>
      simp only [stepTid, hp, hsl]
      exact hInv
    | some o =>
      cases o with
      | none =>
        simp only [stepTid, hp, hsl]
        exact hInv
      | some r =>
        simp only [stepTid, hp, hsl]
        refine InvOk_setPhase v s t _ hInv ?_
        intro g2 r2 hg
        cases hg
        exact hG g r hsl
  | finished g r =>
    simp only [stepTid, hp]
    exact hInv

lemma InvOk_start {V E : Type} (v : V) :
    InvOk v (startSF (V := V) (E := E)) := by
  refine ⟨?_, ?_, ?_⟩
  · intro w hw
    cases hw
  · intro g r hg
    cases hg
  · intro t g r h2
    cases h2

lemma InvOk_run {V E : Type} (inits : Nat → Except E V) (v : V)
    (hall : AllOk inits v) (s : SFState V E) (h : InvOk v s)
    (sched : List Nat) : InvOk v (runSF inits s sched) := by
  induction sched generalizing s with
  | nil => exact h
  | cons t rest ih => exact ih _ (InvOk_step inits v hall s t h)

/-!
## Helper lemmas: segmentation layer
-/

lemma Inner.new_eq {K V : Type} (mc n : Nat) (ttl tti : Option Nat) (b : Bool)
    (hn : n ≠ 0) :
    Inner.new (K := K) (V := V) mc n ttl tti b =
      some
        { desired_capacity := mc
          segments :=
            (List.range n).map
              (fun _ => with_everything (mc / next_power_of_two n) ttl tti b)
          segment_shift := 64 - ulog2 (next_power_of_two n) } := by
  unfold Inner.new
  simp [hn]

lemma segIEIGo_ok {K V : Type} (p : K → V → Bool) (l : List (CacheState K V))
    (h : ∀ c ∈ l, c.invalidator_enabled = true) :
    (segIEIGo p l).1 = .ok () := by
  induction l with
  | nil => rfl
  | cons c rest ih =>
    have hc : c.invalidator_enabled = true := h c (by simp)
    have hrest := ih (fun c2 hc2 => h c2 (by simp [hc2]))
    simp only [segIEIGo, cacheInvalidateEntriesIf, hc, if_true]
    cases hgo : segIEIGo p rest with
    | mk r rest2 =>
      simp only [hgo] at hrest
      simpa using hrest

lemma segIEIGo_err {K V : Type} (p : K → V → Bool) (c : CacheState K V)
    (rest : List (CacheState K V)) (h : c.invalidator_enabled = false) :
    (segIEIGo p (c :: rest)).1 = .error .InvalidationClosuresDisabled := by
  simp [segIEIGo, cacheInvalidateEntriesIf, h]

/-!
## Claim theorems: segmentation layer
-/

/-- Claim C5.  The claim states that `new_segmented(max_capacity, n)`
creates `next_power_of_two n` internal segments.  The code is a slip: at
`num_segments = 3` it creates only 3 segments (`Inner::new` maps over
`0..num_segments`), even though it computes `segment_shift` and the
per-segment capacity for `next_power_of_two 3 = 4` segments and its own
comment speaks of `actual_num_segments` elements.  This theorem evaluates
the embedded constructor at the failing input: 3 segments are created,
the shift is the one for 4 segments, and the next power of two of 3 is
4 ≠ 3. -/
theorem c5_segment_count :
    (Inner.new (K := Nat) (V := Nat) 100 3 none none false).map
        (fun i => (i.segments.length, i.segment_shift)) = some (3, 62) ∧
    next_power_of_two 3 = 4 := by
  constructor
  · decide
  · decide

/-- Claim C6.  The claim states that the computed segment index is always
below the length of the segment array.  The code violates this: with
`num_segments = 3` the array has 3 segments but `segment_shift = 62`, so
any hash whose top two bits are set yields index 3 and Rust's slice
indexing in `Inner::select` panics.  This theorem evaluates the embedded
code at such an input: the index equals the array length, and `select`
(whose `Option` result models the panicking indexing) fails. -/
theorem c6_segment_index_oob :
    (Inner.new (K := Nat) (V := Nat) 100 3 none none false).map
        (fun i =>
          (i.segment_index_from_hash (2 ^ 64 - 1), i.segments.length,
            (i.select (2 ^ 64 - 1)).isNone)) = some (3, 3, true) := by
  decide

/-- Claim C7, counterexample.  The claim states every segment's
`max_capacity` is the total `max_capacity` divided by the number of
segments, rounded.  At `max_capacity = 100`, `num_segments = 3` the cache
has 3 segments, and 100 divided by 3 is 33 (rounded down) or 34 (rounded
up) — but each segment is built with capacity 100 / 4 = 25, because the
divisor is `next_power_of_two 3` and the division truncates. -/
theorem c7_cex :
    (Inner.new (K := Nat) (V := Nat) 100 3 none none false).map
        (fun i => (i.segments.map (fun c => c.max_capacity), i.segments.length))
      = some ([25, 25, 25], 3) ∧
    100 / 3 = 33 ∧ (100 + 3 - 1) / 3 = 34 := by
  refine ⟨by decide, by decide, by decide⟩

/-- Claim C7, amended: every internal segment of a segmented cache built
with `new_segmented(max_capacity, n)` has `max_capacity` equal to the
total `max_capacity` divided by the next power of two of `n`, rounded
down (truncating integer division). -/
theorem c7_segment_capacity {K V : Type} (mc n : Nat) (ttl tti : Option Nat)
    (b : Bool) (hn : n ≠ 0) (i : Inner K V)
    (hi : Inner.new mc n ttl tti b = some i) :
    ∀ c ∈ i.segments, c.max_capacity = mc / next_power_of_two n := by
  rw [Inner.new_eq mc n ttl tti b hn] at hi
  intro c hc
  have hseg : i.segments =
      (List.range n).map
        (fun _ => with_everything (mc / next_power_of_two n) ttl tti b) := by
    cases hi
    rfl
  rw [hseg] at hc
  rcases List.mem_map.mp hc with ⟨a, _, ha⟩
  rw [← ha]
  rfl

/-- Witness for C7: the amended statement at `max_capacity = 100`,
`num_segments = 3`. -/
theorem c7_witness :
    (3 ≠ 0) ∧
    ∀ c ∈ ((Inner.new (K := Nat) (V := Nat) 100 3 none none false).getD
        { desired_capacity := 0, segments := [], segment_shift := 0 }).segments,
      c.max_capacity = 100 / next_power_of_two 3 :=
  ⟨by decide,
    c7_segment_capacity 100 3 none none false (by decide) _
      (by rw [Inner.new_eq 100 3 none none false (by decide)]; rfl)⟩

/-- Claim C9: constructing a segmented cache with `num_segments == 0`
panics (the `assert!` in `Inner::new`, modelled by `none`), and for every
positive `num_segments` the construction succeeds — the assert is the
only construction-time panic. -/
theorem c9_zero_segments {K V : Type} (mc n : Nat) (ttl tti : Option Nat)
    (b : Bool) (hn : 0 < n) :
    Inner.new (K := K) (V := V) mc 0 ttl tti b = none ∧
    (Inner.new (K := K) (V := V) mc n ttl tti b).isSome := by
  constructor
  · unfold Inner.new
    simp
  · rw [Inner.new_eq mc n ttl tti b (Nat.pos_iff_ne_zero.mp hn)]
    rfl

/-- Witness for C9 at `num_segments = 4`. -/
theorem c9_witness :
    (0 < 4) ∧
    (Inner.new (K := Nat) (V := Nat) 100 0 none none false = none ∧
      (Inner.new (K := Nat) (V := Nat) 100 4 none none false).isSome) :=
  ⟨by decide, c9_zero_segments 100 4 none none false (by decide)⟩

lemma segInvalidateEntriesIf_fst {K V : Type} (i : Inner K V)
    (p : K → V → Bool) :
    (segInvalidateEntriesIf i p).1 = (segIEIGo p i.segments).1 := by
  unfold segInvalidateEntriesIf
  cases segIEIGo p i.segments
  rfl

/-- Claim C8, counterexample.  The claim states `invalidate_entries_if`
returns a `PredicateId` on a predicate-enabled cache for the segmented
cache as well; but `SegmentedCache::invalidate_entries_if` has result type
`Result<(), PredicateError>` (segment.rs line 236): on success it returns
the unit value, discarding the per-segment predicate ids, while the single
cache does return the id. -/
theorem c8_cex :
    (segInvalidateEntriesIf
        ((Inner.new (K := Nat) (V := Nat) 10 2 none none true).getD
          { desired_capacity := 0, segments := [], segment_shift := 0 })
        (fun _ _ => true)).1 = Except.ok () ∧
    (cacheInvalidateEntriesIf
        (with_everything (K := Nat) (V := Nat) 10 none none true)
        (fun _ _ => true)).1 = Except.ok 0 := by
  constructor
  · decide
  · decide

/-- Claim C8, amended: on a cache built with invalidation predicates
enabled, `invalidate_entries_if` succeeds — the single cache returns a
fresh `PredicateId`, the segmented cache returns unit — and on a cache
built without predicate support both return the
`InvalidationClosuresDisabled` (PredicatesDisabled) error. -/
theorem c8_predicates {K V : Type} (s : CacheState K V) (p : K → V → Bool)
    (mc n : Nat) (ttl tti : Option Nat) (b : Bool) (hn : n ≠ 0) (i : Inner K V)
    (hi : Inner.new mc n ttl tti b = some i) :
    (cacheInvalidateEntriesIf s p).1
        = (if s.invalidator_enabled then Except.ok s.next_pid
           else Except.error PredicateError.InvalidationClosuresDisabled) ∧
    (segInvalidateEntriesIf i p).1
        = (if b then Except.ok ()
           else Except.error PredicateError.InvalidationClosuresDisabled) := by
  constructor
  · unfold cacheInvalidateEntriesIf
    split <;> simp_all
  · rw [Inner.new_eq mc n ttl tti b hn] at hi
    have hseg : i.segments =
        (List.range n).map
          (fun _ => with_everything (mc / next_power_of_two n) ttl tti b) := by
      cases hi
      rfl
    rw [segInvalidateEntriesIf_fst, hseg]
    cases b with
    | true =>
      simp only [if_true]
      apply segIEIGo_ok
      intro c hc
      rcases List.mem_map.mp hc with ⟨a, _, ha⟩
      rw [← ha]
      rfl
    | false =>
      rcases Nat.exists_eq_succ_of_ne_zero hn with ⟨m, rfl⟩
      rw [List.range_succ_eq_map]
      simp only [List.map_cons, if_false]
      exact segIEIGo_err _ _ _ rfl

/-- Witness for C8 at two enabled segments and an enabled single cache. -/
theorem c8_witness :
    (2 ≠ 0) ∧
    ((cacheInvalidateEntriesIf
          (with_everything (K := Nat) (V := Nat) 10 none none true)
          (fun _ _ => true)).1
        = (if (with_everything (K := Nat) (V := Nat) 10 none none
              true).invalidator_enabled then
             Except.ok (with_everything (K := Nat) (V := Nat) 10 none none
               true).next_pid
           else Except.error PredicateError.InvalidationClosuresDisabled) ∧
      (segInvalidateEntriesIf
          ((Inner.new (K := Nat) (V := Nat) 10 2 none none true).getD
            { desired_capacity := 0, segments := [], segment_shift := 0 })
          (fun _ _ => true)).1
        = (if true then Except.ok ()
           else Except.error PredicateError.InvalidationClosuresDisabled)) :=
  ⟨by decide,
    c8_predicates (with_everything 10 none none true) (fun _ _ => true)
      10 2 none none true (by decide) _
      (by rw [Inner.new_eq 10 2 none none true (by decide)]; rfl)⟩

/-!
## Helper lemmas: cache core
-/

lemma lookupE_eq_some {K V : Type} {s : CacheState K V} {k : K} {e : Entry V}
    (h : lookupE s k = some e) :
    s.table k = some e ∧ isExpired s e = false ∧ isTsInvalidated s e = false ∧
      isPredInvalidated s k e = false := by
  unfold lookupE at h
  cases ht : s.table k with
  | none => rw [ht] at h; cases h
  | some e2 =>
    rw [ht] at h
    dsimp only at h
    by_cases h1 : isExpired s e2
    · rw [if_pos h1] at h; cases h
    · rw [if_neg h1] at h
      by_cases h2 : isTsInvalidated s e2
      · rw [if_pos h2] at h; cases h
      · rw [if_neg h2] at h
        by_cases h3 : isPredInvalidated s k e2
        · rw [if_pos h3] at h; cases h
        · rw [if_neg h3] at h
          cases h
          exact ⟨rfl, by simpa using h1, by simpa using h2, by simpa using h3⟩

lemma lookupE_eq_of_checks {K V : Type} {s : CacheState K V} {k : K}
    {e : Entry V} (ht : s.table k = some e) (h1 : isExpired s e = false)
    (h2 : isTsInvalidated s e = false) (h3 : isPredInvalidated s k e = false) :
    lookupE s k = some e := by
  unfold lookupE
  rw [ht]
  dsimp only
  rw [h1, h2, h3]
  simp

lemma lookupE_fresh {K V : Type} (s : CacheState K V) (k : K) (e : Entry V)
    (h1 : s.table k = some e)
    (hlm : e.last_modified_at = s.now) (hla : e.last_accessed_at = s.now)
    (httl : s.time_to_live ≠ some 0) (htti : s.time_to_idle ≠ some 0)
    (hva : ∀ t, s.valid_after = some t → t ≤ e.last_modified_at)
    (hpr : ∀ p ∈ s.preds, p.registered_at ≤ e.last_modified_at) :
    lookupE s k = some e := by
  apply lookupE_eq_of_checks h1
  · unfold isExpired
    have hl : (match s.time_to_live with
        | some ttl => decide (e.last_modified_at + ttl ≤ s.now)
        | none => false) = false := by
      cases hc : s.time_to_live with
      | none => rfl
      | some ttl =>
        have : ttl ≠ 0 := by
          intro h0
          rw [h0] at hc
          exact httl hc
        apply decide_eq_false
        omega
    have hi : (match s.time_to_idle with
        | some tti => decide (e.last_accessed_at + tti ≤ s.now)
        | none => false) = false := by
      cases hc : s.time_to_idle with
      | none => rfl
      | some tti =>
        have : tti ≠ 0 := by
          intro h0
          rw [h0] at hc
          exact htti hc
        apply decide_eq_false
        omega
    rw [hl, hi]
    rfl
  · unfold isTsInvalidated
    cases hc : s.valid_after with
    | none => rfl
    | some t =>
      apply decide_eq_false
      exact Nat.not_lt.mpr (hva t hc)
  · unfold isPredInvalidated
    rw [List.any_eq_false]
    intro p hp
    have : decide (e.last_modified_at < p.registered_at) = false :=
      decide_eq_false (Nat.not_lt.mpr (hpr p hp))
    simp [this]

lemma lookup_insert {K V : Type} [DecidableEq K] [DecidableEq V]
    (s : CacheState K V) (k : K) (v : V) (hw : WF s) (hp : PosExp s) :
    lookup (applyOp s (.insert k v)) k = some v := by
  have htbl : (applyOp s (.insert k v)).table k
      = some ⟨v, s.now + 1, s.now + 1⟩ := by
    simp [applyOp, setK]
  have he := lookupE_fresh (applyOp s (.insert k v)) k ⟨v, s.now + 1, s.now + 1⟩
    htbl rfl rfl hp.1 hp.2
    (fun t ht => Nat.le_succ_of_le (hw.1 t ht))
    (fun p hpm => Nat.le_succ_of_le (hw.2.1 p hpm))
  unfold lookup
  rw [he]
  rfl

lemma drain_append {K V : Type} [DecidableEq K] [DecidableEq V]
    (a b : List (WriteOp K V)) (tbl : K → Option (Entry V))
    (adm : Nat → Bool) (i : Nat) :
    drain tbl (a ++ b) adm i
      = drain (drain tbl a adm i) b adm (i + a.length) := by
  induction a generalizing tbl i with
  | nil => simp [drain]
  | cons op rest ih =>
    cases op with
    | upsert k e =>
      show drain _ (rest ++ b) adm (i + 1) = _
      rw [ih]
      have : i + 1 + rest.length = i + (rest.length + 1) := by omega
      rw [this]
      rfl
    | remove k e =>
      show drain tbl (rest ++ b) adm (i + 1) = _
      rw [ih]
      have : i + 1 + rest.length = i + (rest.length + 1) := by omega
      rw [this]
      rfl

lemma drain_keep {K V : Type} [DecidableEq K] [DecidableEq V]
    (buf : List (WriteOp K V)) (tbl : K → Option (Entry V))
    (adm : Nat → Bool) (i : Nat) (k : K) (e : Entry V)
    (htbl : tbl k = some e)
    (hbuf : ∀ e2, WriteOp.upsert k e2 ∈ buf → e2 ≠ e) :
    drain tbl buf adm i k = some e := by
  induction buf generalizing tbl i with
  | nil => exact htbl
  | cons op rest ih =>
    cases op with
    | remove k2 e2 =>
      exact ih _ _ htbl (fun e3 h3 => hbuf e3 (List.mem_cons_of_mem _ h3))
    | upsert k2 e2 =>
      apply ih
      · by_cases hadm : adm i = true
        · rw [if_pos hadm]
          exact htbl
        · rw [if_neg hadm]
          by_cases ht2 : tbl k2 = some e2
          · rw [if_pos ht2]
            unfold setK
            by_cases hk : k = k2
            · exfalso
              rw [← hk] at ht2
              rw [htbl] at ht2
              have he2 : e2 = e := by
                cases ht2
                rfl
              exact hbuf e2 (by rw [hk]; exact List.mem_cons_self _ _) he2
            · rw [if_neg hk]
              exact htbl
          · rw [if_neg ht2]
            exact htbl
      · exact fun e3 h3 => hbuf e3 (List.mem_cons_of_mem _ h3)

lemma drain_subset {K V : Type} [DecidableEq K] [DecidableEq V]
    (buf : List (WriteOp K V)) (tbl : K → Option (Entry V))
    (adm : Nat → Bool) (i : Nat) (k : K) (e : Entry V)
    (h : drain tbl buf adm i k = some e) :
    tbl k = some e := by
  induction buf generalizing tbl i with
  | nil => exact h
  | cons op rest ih =>
    cases op with
    | remove k2 e2 => exact ih _ _ h
    | upsert k2 e2 =>
      have h2 := ih _ _ h
      by_cases hadm : adm i = true
      · rw [if_pos hadm] at h2
        exact h2
      · rw [if_neg hadm] at h2
        by_cases ht2 : tbl k2 = some e2
        · rw [if_pos ht2] at h2
          unfold setK at h2
          by_cases hk : k = k2
          · rw [if_pos hk] at h2
            cases h2
          · rw [if_neg hk] at h2
            exact h2
        · rw [if_neg ht2] at h2
          exact h2

lemma WF_applyOp {K V : Type} [DecidableEq K] [DecidableEq V]
    (s : CacheState K V) (op : Op K V) (hw : WF s) : WF (applyOp s op) := by
  obtain ⟨hva, hpr, htb, hbuf⟩ := hw
  cases op with
  | insert k v =>
    refine ⟨fun t ht => Nat.le_succ_of_le (hva t ht),
      fun p hp => Nat.le_succ_of_le (hpr p hp), ?_, ?_⟩
    · intro k2 e2 h2
      simp only [applyOp, setK] at h2
      by_cases hk : k2 = k
      · rw [if_pos hk] at h2
        cases h2
        exact Nat.le_refl _
      · rw [if_neg hk] at h2
        exact Nat.le_succ_of_le (htb k2 e2 h2)
    · intro k2 e2 h2
      simp only [applyOp] at h2
      rcases List.mem_append.mp h2 with h3 | h3
      · exact Nat.le_succ_of_le (hbuf k2 e2 h3)
      · simp at h3
        rw [h3.2]
        exact Nat.le_refl _
  | invalidate k =>
    cases ht : s.table k with
    | none =>
      simp only [applyOp, removeKey, ht]
      exact ⟨hva, hpr, htb, hbuf⟩
    | some e =>
      simp only [applyOp, removeKey, ht]
      refine ⟨fun t h2 => Nat.le_succ_of_le (hva t h2),
        fun p hp => Nat.le_succ_of_le (hpr p hp), ?_, ?_⟩
      · intro k2 e2 h2
        simp only [setK] at h2
        by_cases hk : k2 = k
        · rw [if_pos hk] at h2
          cases h2
        · rw [if_neg hk] at h2
          exact Nat.le_succ_of_le (htb k2 e2 h2)
      · intro k2 e2 h2
        rcases List.mem_append.mp h2 with h3 | h3
        · exact Nat.le_succ_of_le (hbuf k2 e2 h3)
        · simp at h3
  | invalidateAll =>
    exact ⟨fun t ht => by cases ht; exact Nat.le_refl _,
      fun p hp => Nat.le_succ_of_le (hpr p hp),
      fun k2 e2 h2 => Nat.le_succ_of_le (htb k2 e2 h2),
      fun k2 e2 h2 => Nat.le_succ_of_le (hbuf k2 e2 h2)⟩
  | invalidateEntriesIf p =>
    by_cases hen : s.invalidator_enabled = true
    · simp only [applyOp, hen, if_true]
      refine ⟨fun t ht => Nat.le_succ_of_le (hva t ht), ?_,
        fun k2 e2 h2 => Nat.le_succ_of_le (htb k2 e2 h2),
        fun k2 e2 h2 => Nat.le_succ_of_le (hbuf k2 e2 h2)⟩
      intro q hq
      rcases List.mem_append.mp hq with h3 | h3
      · exact Nat.le_succ_of_le (hpr q h3)
      · simp at h3
        simp [h3]
    · simp only [applyOp, hen, if_false]
      exact ⟨hva, hpr, htb, hbuf⟩
  | getOp k =>
    cases hl : lookupE s k with
    | none =>
      simp only [applyOp, hl]
      exact ⟨hva, hpr, htb, hbuf⟩
    | some e =>
      simp only [applyOp, hl]
      refine ⟨hva, hpr, ?_, hbuf⟩
      intro k2 e2 h2
      simp only [setK] at h2
      by_cases hk : k2 = k
      · rw [if_pos hk] at h2
        cases h2
        exact htb k e (lookupE_eq_some hl).1
      · rw [if_neg hk] at h2
        exact htb k2 e2 h2
  | sync adm =>
    refine ⟨hva, hpr, ?_, ?_⟩
    · intro k2 e2 h2
      simp only [applyOp] at h2
      exact htb k2 e2 (drain_subset _ _ _ _ _ _ h2)
    · intro k2 e2 h2
      simp only [applyOp] at h2
      cases h2


lemma vaNat_applyOp {K V : Type} [DecidableEq K] [DecidableEq V]
    (s : CacheState K V) (op : Op K V) (hw : WF s) :
    vaNat s ≤ vaNat (applyOp s op) := by
  have hub : vaNat s ≤ s.now := by
    unfold vaNat
    cases hv : s.valid_after with
    | none => exact Nat.zero_le _
    | some t => exact hw.1 t hv
  cases op with
  | insert k v => exact Nat.le_refl _
  | invalidate k =>
    cases ht : s.table k with
    | none => simp only [applyOp, removeKey, ht]; exact Nat.le_refl _
    | some e => simp only [applyOp, removeKey, ht]; exact Nat.le_refl _
  | invalidateAll =>
    show vaNat s ≤ (some (s.now + 1)).getD 0
    simp only [Option.getD_some]
    omega
  | invalidateEntriesIf p =>
    by_cases hen : s.invalidator_enabled = true
    · simp only [applyOp, hen, if_true]
      exact Nat.le_refl _
    · simp only [applyOp, hen, if_false]
      exact Nat.le_refl _
  | getOp k =>
    cases hl : lookupE s k with
    | none => simp only [applyOp, hl]; exact Nat.le_refl _
    | some e => simp only [applyOp, hl]; exact Nat.le_refl _
  | sync adm => exact Nat.le_refl _

lemma vaNat_runOps {K V : Type} [DecidableEq K] [DecidableEq V]
    (s : CacheState K V) (ops : List (Op K V)) (hw : WF s) :
    vaNat s ≤ vaNat (runOps s ops) := by
  induction ops generalizing s with
  | nil => exact Nat.le_refl _
  | cons op rest ih =>
    exact Nat.le_trans (vaNat_applyOp s op hw) (ih _ (WF_applyOp s op hw))

lemma vaNat_le_of_lookupE {K V : Type} {s : CacheState K V} {k : K}
    {e : Entry V} (h : lookupE s k = some e) :
    vaNat s ≤ e.last_modified_at := by
  have h2 := (lookupE_eq_some h).2.2.1
  unfold isTsInvalidated at h2
  unfold vaNat
  cases hv : s.valid_after with
  | none => exact Nat.zero_le _
  | some t =>
    rw [hv] at h2
    simp only [Option.getD_some]
    have := of_decide_eq_false h2
    omega

lemma WF_with_everything {K V : Type} (mc : Nat) (ttl tti : Option Nat)
    (b : Bool) : WF (with_everything (K := K) (V := V) mc ttl tti b) := by
  refine ⟨?_, ?_, ?_, ?_⟩
  · intro t ht
    cases ht
  · intro p hp
    cases hp
  · intro k e he
    cases he
  · intro k e he
    cases he

lemma PosExp_with_none {K V : Type} (mc : Nat) (b : Bool) :
    PosExp (with_everything (K := K) (V := V) mc none none b) := by
  refine ⟨?_, ?_⟩
  · intro h
    cases h
  · intro h
    cases h

lemma drain_single_admit {K V : Type} [DecidableEq K] [DecidableEq V]
    (tbl : K → Option (Entry V)) (k : K) (e : Entry V) (adm : Nat → Bool)
    (i : Nat) (h : adm i = true) :
    drain tbl [WriteOp.upsert k e] adm i = tbl := by
  show drain (if adm i = true then tbl else _) [] adm (i + 1) = tbl
  rw [if_pos h]
  rfl

/-!
## Claim theorems: cache core operations
-/

/-- Claim C1: after `insert(k, v)`, a `get(&k)` performed before any
housekeeping runs returns a clone of `v` (the new entry is visible
immediately), and after `insert(k, v); sync()` the `get` still returns
`Some v` whenever the admission policy admitted the entry (the admission
decisions taken by the housekeeper while draining the write buffer are the
`adm` parameter; the freshly appended insert event sits at index
`s.write_buf.length`).  Stated over any well-formed state whose configured
expiry durations are positive. -/
theorem c1_insert_then_get {K V : Type} [DecidableEq K] [DecidableEq V]
    (s : CacheState K V) (k : K) (v : V) (adm : Nat → Bool)
    (hw : WF s) (hp : PosExp s) (hadm : adm s.write_buf.length = true) :
    lookup (applyOp s (.insert k v)) k = some v ∧
    lookup (applyOp (applyOp s (.insert k v)) (.sync adm)) k = some v := by
  refine ⟨lookup_insert s k v hw hp, ?_⟩
  have htbl2 : (applyOp (applyOp s (.insert k v)) (.sync adm)).table k
      = some ⟨v, s.now + 1, s.now + 1⟩ := by
    show drain (applyOp s (.insert k v)).table
        (applyOp s (.insert k v)).write_buf adm 0 k = _
    have hb : (applyOp s (.insert k v)).write_buf
        = s.write_buf ++ [.upsert k ⟨v, s.now + 1, s.now + 1⟩] := rfl
    rw [hb, drain_append]
    have hkeep : drain (applyOp s (.insert k v)).table s.write_buf adm 0 k
        = some ⟨v, s.now + 1, s.now + 1⟩ := by
      apply drain_keep
      · simp [applyOp, setK]
      · intro e2 h2 he2
        have hle := hw.2.2.2 k e2 h2
        rw [he2] at hle
        have hbad : s.now + 1 ≤ s.now := hle
        omega
    have h0 : 0 + s.write_buf.length = s.write_buf.length := by omega
    rw [h0, drain_single_admit _ _ _ _ _ hadm]
    exact hkeep
  have he := lookupE_fresh (applyOp (applyOp s (.insert k v)) (.sync adm)) k
    ⟨v, s.now + 1, s.now + 1⟩ htbl2 rfl rfl hp.1 hp.2
    (fun t ht => Nat.le_succ_of_le (hw.1 t ht))
    (fun p hpm => Nat.le_succ_of_le (hw.2.1 p hpm))
  unfold lookup
  rw [he]
  rfl

/-- Witness for C1: on a fresh cache, insert key 1 with value 2, then read
it back directly and after a `sync` that admits everything. -/
theorem c1_witness :
    WF (with_everything (K := Nat) (V := Nat) 10 none none false) ∧
    PosExp (with_everything (K := Nat) (V := Nat) 10 none none false) ∧
    (fun _ => true) (with_everything (K := Nat) (V := Nat) 10 none none
      false).write_buf.length = true ∧
    (lookup (applyOp (with_everything (K := Nat) (V := Nat) 10 none none false)
        (.insert 1 2)) 1 = some 2 ∧
      lookup (applyOp (applyOp (with_everything (K := Nat) (V := Nat) 10 none
        none false) (.insert 1 2)) (.sync (fun _ => true))) 1 = some 2) :=
  ⟨WF_with_everything 10 none none false, PosExp_with_none 10 false, rfl,
    c1_insert_then_get (with_everything 10 none none false) 1 2 (fun _ => true)
      (WF_with_everything 10 none none false) (PosExp_with_none 10 false) rfl⟩

/-- Claim C4: `invalidate_all` records the monotonic timestamp `s.now + 1`.
First conjunct: after the call, no later `get` — after any further
sequence of operations — returns an entry whose `last_modified_at`
precedes that timestamp.  Second conjunct: immediately after the call
every previously inserted entry is absent from the viewpoint of `get`.
Third conjunct: an entry inserted after the call is returned normally. -/
theorem c4_invalidate_all {K V : Type} [DecidableEq K] [DecidableEq V]
    (s : CacheState K V) (hw : WF s) (hp : PosExp s) (ops : List (Op K V))
    (k k2 : K) (v : V) :
    (∀ e, lookupE (runOps (applyOp s .invalidateAll) ops) k = some e →
      s.now + 1 ≤ e.last_modified_at) ∧
    lookup (applyOp s .invalidateAll) k = none ∧
    lookup (applyOp (applyOp s .invalidateAll) (.insert k2 v)) k2 = some v := by
  refine ⟨?_, ?_, ?_⟩
  · intro e he
    have h1 : vaNat (applyOp s .invalidateAll) = s.now + 1 := rfl
    have h2 := vaNat_runOps (applyOp s .invalidateAll) ops
      (WF_applyOp s .invalidateAll hw)
    have h3 := vaNat_le_of_lookupE he
    omega
  · cases ht : s.table k with
    | none =>
      unfold lookup lookupE
      have : (applyOp s .invalidateAll).table k = none := ht
      rw [this]
      rfl
    | some e =>
      have hts : isTsInvalidated (applyOp s .invalidateAll) e = true := by
        unfold isTsInvalidated
        show decide (e.last_modified_at < s.now + 1) = true
        have := hw.2.2.1 k e ht
        simp
        omega
      unfold lookup lookupE
      have htt : (applyOp s .invalidateAll).table k = some e := ht
      rw [htt]
      dsimp only
      rw [hts]
      by_cases hex : isExpired (applyOp s .invalidateAll) e
      · rw [if_pos hex]
        rfl
      · rw [if_neg hex]
        simp
  · exact lookup_insert (applyOp s .invalidateAll) k2 v
      (WF_applyOp s .invalidateAll hw) hp

/-- Witness for C4: a fresh cache holding key 1; after `invalidate_all`
the old entry is gone, and key 3 inserted afterwards is visible; any entry
a later `get` returns was written after the call. -/
theorem c4_witness :
    WF (applyOp (with_everything (K := Nat) (V := Nat) 10 none none false)
      (.insert 1 2)) ∧
    PosExp (applyOp (with_everything (K := Nat) (V := Nat) 10 none none false)
      (.insert 1 2)) ∧
    (lookup (applyOp (applyOp (with_everything (K := Nat) (V := Nat) 10 none
        none false) (.insert 1 2)) .invalidateAll) 1 = none ∧
      lookup (applyOp (applyOp (applyOp (with_everything (K := Nat) (V := Nat)
        10 none none false) (.insert 1 2)) .invalidateAll) (.insert 3 4)) 3
        = some 4) :=
  ⟨WF_applyOp _ _ (WF_with_everything 10 none none false),
    PosExp_with_none (K := Nat) (V := Nat) 10 false,
    (c4_invalidate_all
        (applyOp (with_everything 10 none none false) (.insert 1 2))
        (WF_applyOp _ _ (WF_with_everything 10 none none false))
        (PosExp_with_none (K := Nat) (V := Nat) 10 false) [] 1 3 4).2⟩

/-- Claim C10: `invalidate` of a key that is absent from the hash table is
a no-op — no `Remove` write event is posted and the state is unchanged —
while `invalidate` of a present key removes the binding and posts exactly
one `Remove` write event carrying the removed entry
(`Cache::invalidate_with_hash`, cache.rs lines 364-374). -/
theorem c10_invalidate_noop {K V : Type} [DecidableEq K] [DecidableEq V]
    (s : CacheState K V) (k : K) :
    (s.table k = none → applyOp s (.invalidate k) = s) ∧
    (∀ e, s.table k = some e →
      (applyOp s (.invalidate k)).table k = none ∧
      (applyOp s (.invalidate k)).write_buf = s.write_buf ++ [.remove k e]) := by
  constructor
  · intro h
    simp only [applyOp, removeKey, h]
  · intro e h
    simp only [applyOp, removeKey, h]
    constructor
    · simp [setK]
    · trivial

/-- Claim C2, counterexample.  In the schedule below both threads run the
fast-path cache read while the key is absent; thread 0 then installs the
waiter, evaluates `init`, stores the value and removes the waiter; thread
1, which had already missed, finds no waiter and no obstacle, installs a
fresh waiter and evaluates `init` a second time.  Both concurrent calls
complete and return the same value, but `evals = [0, 1]`: the init closure
is evaluated twice, not exactly once. -/
theorem c2_cex :
    (runSF cInitsOk startSF [0, 1, 0, 0, 1, 1]).evals = [0, 1] ∧
    (runSF cInitsOk startSF [0, 1, 0, 0, 1, 1]).phases 0
      = Phase.finished (some 0) (.ok 42) ∧
    (runSF cInitsOk startSF [0, 1, 0, 0, 1, 1]).phases 1
      = Phase.finished (some 1) (.ok 42) := by
  refine ⟨by decide, by decide, by decide⟩

/-- Claim C2, amended: for any number of threads concurrently calling
`get_or_insert_with(k, init)` with the same deterministic `init` returning
`v`, under every interleaving at most one thread evaluates `init` at any
time (waiter ownership serializes evaluations — though a thread whose
fast-path read raced an earlier completed evaluation may start a second
one), and every caller that completes returns the same value `v`, the one
produced by an evaluation of `init`. -/
theorem c2_single_flight {V E : Type} (inits : Nat → Except E V) (v : V)
    (hall : AllOk inits v) (sched : List Nat) :
    (∀ t1 t2 g1 g2, (runSF inits startSF sched).phases t1 = .owner g1 →
      (runSF inits startSF sched).phases t2 = .owner g2 → t1 = t2) ∧
    (∀ (t : Nat) (g : Option Nat) (r : Except E V),
      (runSF inits startSF sched).phases t = .finished g r → r = .ok v) := by
  have h1 := InvSF_run inits startSF (InvSF_start inits) sched
  have h2 := InvOk_run inits v hall startSF (InvOk_start v) sched
  exact ⟨h1.2.1, h2.2.2⟩

/-- Witness for C2: the all-succeed family returning 42, on the racing
schedule; thread 0 finished with the value produced by `init`. -/
theorem c2_witness :
    AllOk cInitsOk 42 ∧
    (runSF cInitsOk startSF [0, 1, 0, 0, 1, 1]).phases 0
      = Phase.finished (some 0) (.ok 42) ∧
    (Except.ok 42 : Except Nat Nat) = .ok 42 :=
  ⟨fun _ => rfl, by decide,
    (c2_single_flight cInitsOk 42 (fun _ => rfl) [0, 1, 0, 0, 1, 1]).2 0
      (some 0) (.ok 42) (by decide)⟩

/-- Claim C3.  Universally over all schedules and init families: a thread
whose init was evaluated finished with exactly its init's result (so a
failing evaluator returns its error); the cache only ever holds values
coming from successful evaluations (a failure stores nothing); and any two
threads that completed through the same waiter generation observed the
identical shared result (waiters on a failed initialization all receive
the same shared error).  The concrete conjuncts then exhibit the failure
path: after thread 0's failing epoch the cache is unchanged (still empty)
and thread 0 holds the error; a waiter on the same generation receives the
identical error; and a subsequent call re-evaluates its own init —
`evals` grows to `[0, 1]` and the second call's value is stored. -/
theorem c3_try_insert_failure {V E : Type} (inits : Nat → Except E V)
    (sched : List Nat) :
    (∀ t : Nat, t ∈ (runSF inits startSF sched).evals →
      ∃ g : Nat, (runSF inits startSF sched).phases t
        = .finished (some g) (inits t)) ∧
    (∀ v : V, (runSF inits startSF sched).cache = some v →
      ∃ t : Nat, t ∈ (runSF inits startSF sched).evals ∧ inits t = .ok v) ∧
    (∀ (t1 t2 g : Nat) (r1 r2 : Except E V),
      (runSF inits startSF sched).phases t1 = .finished (some g) r1 →
      (runSF inits startSF sched).phases t2 = .finished (some g) r2 →
      r1 = r2) ∧
    ((runSF cInits3 startSF [0, 0, 0]).cache = none ∧
      (runSF cInits3 startSF [0, 0, 0]).phases 0
        = Phase.finished (some 0) (.error 7) ∧
      (runSF cInits3 startSF [0, 0, 1, 1, 0, 1]).phases 1
        = Phase.finished (some 0) (.error 7) ∧
      (runSF cInits3 startSF [0, 0, 0, 1, 1, 1]).evals = [0, 1] ∧
      (runSF cInits3 startSF [0, 0, 0, 1, 1, 1]).cache = some 5) := by
  have h := InvSF_run inits startSF (InvSF_start inits) sched
  refine ⟨h.2.2.2.1, h.2.2.2.2.1, ?_,
    by decide, by decide, by decide, by decide, by decide⟩
  intro t1 t2 g r1 r2 h1 h2
  have e1 := h.2.2.2.2.2 t1 g r1 h1
  have e2 := h.2.2.2.2.2 t2 g r2 h2
  rw [e1] at e2
  cases e2
  rfl

/-- Witness for C3: on the waiter schedule, threads 0 and 1 both finished
through generation 0 and therefore returned the identical shared error. -/
theorem c3_witness :
    (runSF cInits3 startSF [0, 0, 1, 1, 0, 1]).phases 0
      = Phase.finished (some 0) (.error 7) ∧
    (runSF cInits3 startSF [0, 0, 1, 1, 0, 1]).phases 1
      = Phase.finished (some 0) (.error 7) ∧
    (Except.error 7 : Except Nat Nat) = .error 7 :=
  ⟨by decide, by decide,
    (c3_try_insert_failure cInits3 [0, 0, 1, 1, 0, 1]).2.2.1 0 1 0
      (.error 7) (.error 7) (by decide) (by decide)⟩

/-- Witness for C10: a fresh cache does not hold key 5, and invalidating
it leaves the state unchanged; after inserting key 5 the entry is present
and invalidating it removes the binding and posts the `Remove` event. -/
theorem c10_witness :
    ((with_everything (K := Nat) (V := Nat) 10 none none false).table 5 = none) ∧
    applyOp (with_everything (K := Nat) (V := Nat) 10 none none false)
        (.invalidate 5)
      = with_everything (K := Nat) (V := Nat) 10 none none false :=
  ⟨rfl,
    (c10_invalidate_noop (with_everything 10 none none false) 5).1 rfl⟩

end Moka
